import Mathlib

/-!
# Verification of `pacmod`'s pack pipeline

A shallow embedding, in Lean 4, of `pack/pack.go` from the `wenit/pacmod`
repository, together with theorems settling the specification's claims.

Modelling conventions:

* Go strings are Lean `String`s; most helpers are defined over `List Char`
  (a Lean `String` is a structure wrapping its `List Char` data), which keeps
  every definition executable and the proofs elementary.
* The filesystem is explicit: the module source tree is an `FSEntry` tree,
  and the output directory is a little key/value store of written files.
* Go standard-library functions used by the code (`strings.Split`,
  `strings.TrimPrefix`, `filepath.Clean`, `filepath.Join`, `bufio.Scanner`
  line splitting, `encoding/json` marshalling of a two-string-field struct,
  `time.Time.Format` with the layout `"2006-01-02T15:04:05Z"`) are modelled
  by Lean functions that follow the documented behaviour of those functions
  on Unix (`filepath.Separator = '/'`).
* Go's `error` values are modelled by `GoErr`, keeping the `fmt.Errorf`
  wrapping structure; a wrapped `nil` error (as in `%w` applied to a nil
  `error`) is a wrapped `none`.
-/

namespace Pacmod

/-! ## Go standard-library string helpers -/

/-- `strings.Split(s, sep)` for a single-character separator `sep`,
on the character list: split at every occurrence of `sep`.
Like Go's `strings.Split`, the result is always non-empty. -/
def splitChar (sep : Char) : List Char → List (List Char)
  | [] => [[]]
  | c :: cs =>
    if c = sep then
      [] :: splitChar sep cs
    else
      match splitChar sep cs with
      | [] => [[c]]
      | p :: ps => (c :: p) :: ps

/-- Join character lists with a separator character: the inverse of
`splitChar`. -/
def joinChar (sep : Char) : List (List Char) → List Char
  | [] => []
  | [x] => x
  | x :: xs => x ++ sep :: joinChar sep xs

/-- `strings.Split(s, " ")`: split a string on single-space separators. -/
def stringsSplitSpace (s : String) : List String :=
  (splitChar ' ' s.data).map (fun l => ⟨l⟩)

/-- `strings.Join(elems, "/")`, the separator used by `filepath` on Unix. -/
def joinWithSlash : List String → String
  | [] => ""
  | [x] => x
  | x :: xs => x ++ "/" ++ joinWithSlash xs

/-- `strings.TrimPrefix(s, prefix)`: `s` without the leading `prefix`;
`s` unchanged when `s` does not start with `prefix`. -/
def stringsTrimPrefix (s pre : String) : String :=
  if pre.data.isPrefixOf s.data then ⟨s.data.drop pre.data.length⟩ else s

/-- The first line scanned by a `bufio.Scanner` with the default
`ScanLines` split function: everything before the first `'\n'`, with one
trailing `'\r'` removed.  On empty input `Scan()` reports no token and
`Text()` returns the empty string, which this function also returns. -/
def firstLine (s : String) : String :=
  let l := s.data.takeWhile (fun c => c ≠ '\n')
  ⟨if l.getLast? = some '\r' then l.dropLast else l⟩

/-! ## Go `path/filepath` (Unix: separator `'/'`) -/

/-- One element-processing step of `filepath.Clean`'s loop, on the stack of
output elements (held in reverse).  Empty and `"."` elements are skipped;
`".."` pops a non-`".."` element, is dropped at the root of a rooted path,
and is kept otherwise; any other element is pushed. -/
def cleanPush (rooted : Bool) (out : List String) (e : String) : List String :=
  if e = "" ∨ e = "." then out
  else if e = ".." then
    match out with
    | o :: rest => if o = ".." then e :: o :: rest else rest
    | [] => if rooted then [] else [".."]
  else e :: out

/-- Process all path elements as `filepath.Clean` does. -/
def cleanElems (rooted : Bool) (elems : List String) : List String :=
  (elems.foldl (cleanPush rooted) []).reverse

/-- `filepath.Clean` on Unix: lexical cleaning.  The path is split on
`'/'`; empty and `"."` elements vanish, `".."` elements backtrack, and the
result is re-joined, keeping a leading `'/'` for rooted paths and
returning `"."` when nothing remains of a relative path. -/
def filepathClean (path : String) : String :=
  if path = "" then "."
  else
    let rooted := path.data.head? = some '/'
    let joined := joinWithSlash (cleanElems rooted ((splitChar '/' path.data).map (fun l => ⟨l⟩)))
    if rooted then "/" ++ joined
    else if joined = "" then "." else joined

/-- `filepath.Join` on Unix: drop leading empty elements, join the rest
with `'/'`, and clean; the empty string when every element is empty. -/
def filepathJoin (elems : List String) : String :=
  match elems.dropWhile (fun e => e = "") with
  | [] => ""
  | l => filepathClean (joinWithSlash l)

/-- `filepath.Join` of exactly two elements, the shape used by the code. -/
def filepathJoin2 (a b : String) : String := filepathJoin [a, b]

/-! ## Go `error` values -/

/-- A Go `error` value: either a base error message, or `fmt.Errorf`
wrapping with `%w` — the wrapped argument is `none` when the Go code
wraps a nil `error`. -/
inductive GoErr where
  | msg (s : String)
  | wrap (s : String) (inner : Option GoErr)

/-! ## The module source tree and `getModuleName` -/

/-- A directory entry of the module source tree: a regular file with its
byte content (as a string), or a directory with a list of children. -/
inductive FSEntry where
  | file (name : String) (content : String)
  | dir (name : String) (entries : List FSEntry)

/-- The name of a directory entry. -/
def FSEntry.name : FSEntry → String
  | .file n _ => n
  | .dir n _ => n

/-- Look up the content of a regular file directly inside a tree's root. -/
def FSEntry.rootFile (t : FSEntry) (n : String) : Option String :=
  match t with
  | .file _ _ => none
  | .dir _ entries =>
    entries.foldr (fun e acc => match e with
      | .file n' c => if n' = n then some c else acc
      | .dir _ _ => acc) none

/-- `getModuleName` (pack.go:39–56): open `<path>/go.mod`, scan its first
line, split it on single spaces, fail when fewer than two tokens result,
and return the second token.  The parse-error branch wraps `err`, which is
the *nil* open error at that point (hence `none`).  The source tree stands
for the directory at `path`. -/
def getModuleName (tree : FSEntry) (path : String) : Except GoErr String :=
  let moduleFilePath := filepathJoin2 path "go.mod"
  match tree.rootFile "go.mod" with
  | none => .error (.wrap "unable to open module file" (some (.msg ("open " ++ moduleFilePath))))
  | some content =>
    let moduleHeaderParts := stringsSplitSpace (firstLine content)
    if moduleHeaderParts.length ≤ 1 then
      .error (.wrap "unable to parse module header" none)
    else
      .ok (moduleHeaderParts.getD 1 "")

/-! ## The directory walk and the archive entries -/

mutual

/-- The walk-callback body of `getFilePathsToArchive` (pack.go:95–123),
run over the whole tree by `filepath.Walk`: a directory entry whose
`fileInfo.Name()` is exactly `".git"` is pruned (`filepath.SkipDir`),
every other directory contributes no entry of its own but is descended
into, each child at `filepath.Join(path, name)`, and every non-directory
contributes its walked path.  The entry's `name` field stands for
`fileInfo.Name()`.  `filepath.Walk` visits each directory's children in
lexical name order; an `FSEntry.dir`'s entry list represents the
directory's children in that visiting order. -/
def walkTree (path : String) : FSEntry → List String
  | .file _ _ => [path]
  | .dir dirName entries =>
    if dirName = ".git" then [] else walkEntries path entries

/-- Walk the children of a (non-pruned) directory at `path`, in order. -/
def walkEntries (path : String) : List FSEntry → List String
  | [] => []
  | e :: es => walkTree (filepathJoin2 path e.name) e ++ walkEntries path es

end

/-- `getFilePathsToArchive` (pack.go:95–123): the list of non-directory
paths produced by walking the module directory.  In the model the walk
itself never errors. -/
def getFilePathsToArchive (path : String) (tree : FSEntry) : List String :=
  walkTree path tree

/-- `getZipPath` (pack.go:125–128): strip `path` as a literal string
prefix from the walked path, and join the result to
`fmt.Sprintf("%s@%s", moduleName, version)`. -/
def getZipPath (path currentFilePath moduleName version : String) : String :=
  let filePath := stringsTrimPrefix currentFilePath path
  filepathJoin2 (moduleName ++ "@" ++ version) filePath

/-- The in-archive entry paths created by the loop of `createZipArchive`
(pack.go:74–90), in order: one `zipWriter.Create(getZipPath ...)` per
walked file. -/
def zipEntries (path : String) (tree : FSEntry) (moduleName version : String) : List String :=
  (getFilePathsToArchive path tree).map
    (fun filePath => getZipPath path filePath moduleName version)

/-! ## The output directory and the four pipeline steps

The files the pipeline writes are modelled by a little store keyed by
path.  A stored file carries its data and the permission bits passed to
the call that created it; OS-level permission subtleties (umask, mode
preservation when truncating an existing file) are outside the model.
Creation failures (`os.Create` / `ioutil.WriteFile` on an unwritable or
missing directory) are modelled by a set of denied paths. -/

/-- Bytes of an output file: a zip archive is represented by its list of
entry paths (no claim concerns the compressed bytes); any other file by
its content string. -/
inductive FileData where
  | zipData (entries : List String)
  | textData (s : String)
deriving DecidableEq, Repr

/-- Write a file to the output store: replace the file at `p` when it
exists, append it otherwise. -/
def writeOut (store : List (String × FileData × Nat)) (p : String)
    (d : FileData) (perm : Nat) : List (String × FileData × Nat) :=
  if store.any (fun e => e.1 = p) then
    store.map (fun e => if e.1 = p then (p, d, perm) else e)
  else
    store ++ [(p, d, perm)]

/-- Read a file back from the output store. -/
def readOut (store : List (String × FileData × Nat)) (p : String) :
    Option (FileData × Nat) :=
  match store with
  | [] => none
  | e :: rest => if e.1 = p then some e.2 else readOut rest p

/-- The filesystem as the pipeline sees it: the module source tree at the
module path, the files written so far, and the paths where file creation
fails. -/
structure World where
  tree : FSEntry
  out : List (String × FileData × Nat)
  createDenied : List String

/-- `createZipArchive` (pack.go:58–93): collect the file paths, create
`<outputDirectory>/source.zip` (an error when creation is denied), and
stream every collected file into the archive under its `getZipPath`.
Source files were just found by the walk, so in the model the per-file
open and copy steps succeed; `os.Create` uses permission `0666`. -/
def createZipArchive (w : World) (path moduleName version outputDirectory : String) :
    World × Option GoErr :=
  let filePathsToArchive := getFilePathsToArchive path w.tree
  let outputPath := filepathJoin2 outputDirectory "source.zip"
  if outputPath ∈ w.createDenied then
    (w, some (.wrap "unable to create zip file" (some (.msg ("open " ++ outputPath)))))
  else
    let entries := filePathsToArchive.map
      (fun filePath => getZipPath path filePath moduleName version)
    ({w with out := writeOut w.out outputPath (.zipData entries) 0o666}, none)

/-! ## The info file -/

/-- A wall-clock instant as `time.Now()` presents it to the format call:
the broken-down local-time fields used by the layout
`"2006-01-02T15:04:05Z"`. -/
structure DateTime where
  year : Nat
  month : Nat
  day : Nat
  hour : Nat
  minute : Nat
  second : Nat
deriving DecidableEq, Repr

/-- The decimal digit character for `n < 10`. -/
def digitChar (n : Nat) : Char := Char.ofNat (48 + n)

/-- Decimal digits of `n`, most significant first, accumulator form. -/
def natDigitsAux (n : Nat) (acc : List Char) : List Char :=
  if h : n = 0 then acc
  else natDigitsAux (n / 10) (digitChar (n % 10) :: acc)
decreasing_by exact Nat.div_lt_self (Nat.pos_of_ne_zero h) (by norm_num)

/-- Decimal digits of `n`, most significant first (`"0"` for zero), as
Go's integer formatting produces them. -/
def natDigits (n : Nat) : List Char :=
  if n = 0 then ['0'] else natDigitsAux n []

/-- Left-pad a digit string with `'0'` to the given width, as Go's
fixed-width integer formatting does (no truncation when wider). -/
def padWidth (w : Nat) (ds : List Char) : List Char :=
  List.replicate (w - ds.length) '0' ++ ds

/-- `getInfoFileFormattedTime` (pack.go:161–164): `time.Time.Format` with
the layout `"2006-01-02T15:04:05Z"`.  The lone `'Z'` in that layout is a
literal character (it would only be a timezone directive as `"Z07:00"` or
`"Z0700"`), so the output is the zero-padded local-time fields with a
literal `'Z'` appended. -/
def getInfoFileFormattedTime (t : DateTime) : String :=
  ⟨padWidth 4 (natDigits t.year) ++ '-' :: padWidth 2 (natDigits t.month) ++
    '-' :: padWidth 2 (natDigits t.day) ++ 'T' :: padWidth 2 (natDigits t.hour) ++
    ':' :: padWidth 2 (natDigits t.minute) ++ ':' :: padWidth 2 (natDigits t.second) ++ ['Z']⟩

/-- Lowercase hexadecimal digit character for `n < 16`, as Go's JSON
encoder uses. -/
def hexDigitChar (n : Nat) : Char :=
  if n < 10 then Char.ofNat (48 + n) else Char.ofNat (87 + n)

/-- One character of Go `encoding/json` string escaping (HTML escaping
on, as under plain `json.Marshal`): `"` `\` `\n` `\r` `\t` get two-byte
escapes, other control characters and `<` `>` `&` get `\u00XX`, and
U+2028/U+2029 get `\u202X`; everything else is emitted as-is. -/
def jsonEscapeChar (c : Char) : List Char :=
  if c = '"' then ['\\', '"']
  else if c = '\\' then ['\\', '\\']
  else if c = '\n' then ['\\', 'n']
  else if c = '\r' then ['\\', 'r']
  else if c = '\t' then ['\\', 't']
  else if c.toNat < 0x20 ∨ c = '<' ∨ c = '>' ∨ c = '&' then
    ['\\', 'u', '0', '0', hexDigitChar (c.toNat / 16), hexDigitChar (c.toNat % 16)]
  else if c.toNat = 0x2028 ∨ c.toNat = 0x2029 then
    ['\\', 'u', '2', '0', '2', hexDigitChar (c.toNat % 16)]
  else [c]

/-- A JSON string literal: the escaped characters between quotes. -/
def jsonQuote (s : String) : List Char :=
  '"' :: s.data.flatMap jsonEscapeChar ++ ['"']

/-- `json.Marshal` of the `infoFile` struct (pack.go:138–149): a flat
two-field object, fields in declaration order, no whitespace, no
trailing newline. -/
def jsonMarshalInfo (version timeStr : String) : String :=
  ⟨'\x7b' :: (jsonQuote "Version" ++ ':' :: jsonQuote version ++
    ',' :: jsonQuote "Time" ++ ':' :: jsonQuote timeStr ++ ['\x7d'])⟩

/-- Value of a hexadecimal digit character (either case). -/
def hexVal (c : Char) : Option Nat :=
  if '0' ≤ c ∧ c ≤ '9' then some (c.toNat - 48)
  else if 'a' ≤ c ∧ c ≤ 'f' then some (c.toNat - 87)
  else if 'A' ≤ c ∧ c ≤ 'F' then some (c.toNat - 55)
  else none

/-- Undo JSON string escaping; `none` on a malformed escape. -/
def jsonUnescape : List Char → Option (List Char)
  | [] => some []
  | c :: t =>
    if c = '\\' then
      match t with
      | [] => none
      | c2 :: t2 =>
        if c2 = '"' then (jsonUnescape t2).map (fun l => '"' :: l)
        else if c2 = '\\' then (jsonUnescape t2).map (fun l => '\\' :: l)
        else if c2 = 'n' then (jsonUnescape t2).map (fun l => '\n' :: l)
        else if c2 = 'r' then (jsonUnescape t2).map (fun l => '\r' :: l)
        else if c2 = 't' then (jsonUnescape t2).map (fun l => '\t' :: l)
        else if c2 = 'u' then
          match t2 with
          | a :: b :: c3 :: d :: t3 =>
            match hexVal a, hexVal b, hexVal c3, hexVal d with
            | some va, some vb, some vc, some vd =>
              (jsonUnescape t3).map
                (fun l => Char.ofNat (((va * 16 + vb) * 16 + vc) * 16 + vd) :: l)
            | _, _, _, _ => none
          | _ => none
        else none
    else (jsonUnescape t).map (fun l => c :: l)

/-- Scan a JSON string body up to its closing unescaped quote, returning
the raw (still escaped) body and the remaining input. -/
def scanJSONString : List Char → Option (List Char × List Char)
  | [] => none
  | c :: t =>
    if c = '"' then some ([], t)
    else if c = '\\' then
      match t with
      | [] => none
      | c2 :: t2 => (scanJSONString t2).map (fun r => (c :: c2 :: r.1, r.2))
    else (scanJSONString t).map (fun r => (c :: r.1, r.2))

/-- Consume an exact prefix of the input. -/
def expectPrefix (pre s : List Char) : Option (List Char) :=
  if pre.isPrefixOf s then some (s.drop pre.length) else none

/-- Strict parser for the exact shape
`{"Version":<string>,"Time":<string>}`: succeeds only on a flat
two-field object with those fields in that order and nothing — not even
a trailing newline — after the closing brace. -/
def parseInfoFile (s : String) : Option (String × String) :=
  (expectPrefix ('\x7b' :: '"' :: ("Version".data ++ ['"', ':', '"'])) s.data).bind fun r1 =>
    (scanJSONString r1).bind fun rv =>
      (expectPrefix (',' :: '"' :: ("Time".data ++ ['"', ':', '"'])) rv.2).bind fun r3 =>
        (scanJSONString r3).bind fun rt =>
          if rt.2 = ['\x7d'] then
            (jsonUnescape rv.1).bind fun v =>
              (jsonUnescape rt.1).map fun t => ((⟨v⟩ : String), (⟨t⟩ : String))
          else none

/-- Does a string have the exact shape `YYYY-MM-DDTHH:MM:SSZ`
(four digits, dash, two digits, dash, two digits, `T`, two digits,
colon, two digits, colon, two digits, `Z`)? -/
def matchesInfoTimePattern (s : String) : Bool :=
  match s.data with
  | [y1, y2, y3, y4, '-', m1, m2, '-', d1, d2, 'T',
     h1, h2, ':', n1, n2, ':', s1, s2, 'Z'] =>
    y1.isDigit && y2.isDigit && y3.isDigit && y4.isDigit &&
    m1.isDigit && m2.isDigit && d1.isDigit && d2.isDigit &&
    h1.isDigit && h2.isDigit && n1.isDigit && n2.isDigit &&
    s1.isDigit && s2.isDigit
  | _ => false

/-- `createInfoFile` (pack.go:130–159): create
`<outputDirectory>/<version>.info` (permission `0666`) and write the
marshalled info record to it.  `json.Marshal` of two strings cannot
error; write failures beyond denied creation are not modelled. -/
def createInfoFile (w : World) (version outputDirectory : String) (now : DateTime) :
    World × Option GoErr :=
  let infoFilePath := filepathJoin2 outputDirectory (version ++ ".info")
  if infoFilePath ∈ w.createDenied then
    (w, some (.wrap "could not create info file" (some (.msg ("open " ++ infoFilePath)))))
  else
    let currentTime := getInfoFileFormattedTime now
    let infoBytes := jsonMarshalInfo version currentTime
    ({w with out := writeOut w.out infoFilePath (.textData infoBytes) 0o666}, none)

/-! ## The manifest copy and the pipeline -/

/-- `copyModuleFile` (pack.go:166–188): a no-op when `outputDirectory`
is the literal `"."` or the joined source and destination paths are
equal; otherwise read the whole manifest and write it to
`<outputDirectory>/go.mod` with permission `0644`. -/
def copyModuleFile (w : World) (path outputDirectory : String) : World × Option GoErr :=
  if outputDirectory = "." then (w, none)
  else
    let sourcePath := filepathJoin2 path "go.mod"
    let destinationPath := filepathJoin2 outputDirectory "go.mod"
    if sourcePath = destinationPath then (w, none)
    else
      match w.tree.rootFile "go.mod" with
      | none => (w, some (.wrap "unable to read module file" (some (.msg ("open " ++ sourcePath)))))
      | some moduleContents =>
        if destinationPath ∈ w.createDenied then
          (w, some (.wrap "unable to write module file" (some (.msg ("open " ++ destinationPath)))))
        else
          ({w with out := writeOut w.out destinationPath (.textData moduleContents) 0o644}, none)

/-- `Module` (pack.go:18–37): the four steps in order, each error wrapped
with its step message and returned immediately; the returned `World` is
the filesystem state at the moment of return. -/
def Module (w : World) (path version outputDirectory : String) (now : DateTime) :
    World × Option GoErr :=
  match getModuleName w.tree path with
  | .error err => (w, some (.wrap "could not get module name" (some err)))
  | .ok moduleName =>
    match createZipArchive w path moduleName version outputDirectory with
    | (w1, some err) => (w1, some (.wrap "could not create zip archive" (some err)))
    | (w1, none) =>
      match createInfoFile w1 version outputDirectory now with
      | (w2, some err) => (w2, some (.wrap "could not create info file" (some err)))
      | (w2, none) =>
        match copyModuleFile w2 path outputDirectory with
        | (w3, some err) => (w3, some (.wrap "could not copy module file" (some err)))
        | (w3, none) => (w3, none)

/-! ## Handle lifecycle of `createZipArchive`

A second view of `createZipArchive` (pack.go:58–93), recording the file
and writer handle events together with the `defer` discipline of the Go
code: `defer zipFile.Close()` is registered *before* the `os.Create`
error check (so it runs on a nil handle when creation failed),
`defer zipWriter.Close()` right after the writer is built, and each
source file's `defer fileToZip.Close()` after its successful open.
Deferred calls run in LIFO order at every return. -/

/-- One handle event of the archive step. -/
inductive ZipEvent where
  | createOut (ok : Bool)
  | closeOut
  | closeNilOut
  | openSrc (path : String) (ok : Bool)
  | closeSrc (path : String)
  | closeWriter
deriving DecidableEq, Repr

/-- Failure knobs for the archive step's I/O calls: which `os.Create`,
`os.Open`, `zipWriter.Create` and `io.Copy` calls error. -/
structure ZipIO where
  createFails : Bool
  openFail : List String
  entryFail : List String
  copyFail : List String

/-- The per-file loop of `createZipArchive` (pack.go:74–90).  `defers`
holds the pending deferred events, most recently registered first; every
return appends them to the trace (LIFO execution). -/
def zipLoop (io : ZipIO) : List String → List ZipEvent → List ZipEvent → List ZipEvent
  | [], defers, trace => trace ++ defers
  | f :: rest, defers, trace =>
    if f ∈ io.openFail then
      (trace ++ [.openSrc f false]) ++ defers
    else
      let trace' := trace ++ [.openSrc f true]
      let defers' := ZipEvent.closeSrc f :: defers
      if f ∈ io.entryFail then trace' ++ defers'
      else if f ∈ io.copyFail then trace' ++ defers'
      else zipLoop io rest defers' trace'

/-- The handle-event trace of one `createZipArchive` call over the given
walked file paths. -/
def createZipArchiveTrace (io : ZipIO) (files : List String) : List ZipEvent :=
  if io.createFails then
    [.createOut false, .closeNilOut]
  else
    zipLoop io files [.closeWriter, .closeOut] [.createOut true]

/-! ## Concrete fixtures used by the claims -/

/-- A concrete manifest tree whose first line is `module example.com/foo`. -/
def manifestOkTree : FSEntry :=
  .dir "mod" [.file "go.mod" "module example.com/foo\ngo 1.16\n"]

/-- The module directory of the claim's example: regular files `a.txt`
and `sub/b.txt` plus a `.git/config` file, children listed in the
lexical order `filepath.Walk` visits them. -/
def exampleTree : FSEntry :=
  .dir "mod" [
    .dir ".git" [.file "config" "git config"],
    .file "a.txt" "contents of a",
    .dir "sub" [.file "b.txt" "contents of b"]]

/-- A path element that `filepath.Clean` passes through unchanged. -/
def isNormalComponent (e : String) : Bool := !(e = "" || e = "." || e = "..")

/-- A concrete world for the copy-step witness: a module with a
manifest, and an output directory that already holds a stale
`go.mod` with executable permissions. -/
def copyWorld : World :=
  ⟨.dir "mod" [.file "go.mod" "module m/x\n"],
   [("out/go.mod", .textData "old contents", 0o755)], []⟩

/-- A concrete world whose module directory has no manifest. -/
def noManifestWorld : World := ⟨.dir "mod" [.file "README" "hi"], [], []⟩

/-- A concrete world with a manifest but an uncreatable archive path. -/
def deniedZipWorld : World :=
  ⟨.dir "mod" [.file "go.mod" "module m/x\n"], [], ["out/source.zip"]⟩

/-! ## Lemmas about splitting -/

theorem splitChar_ne_nil (sep : Char) (cs : List Char) : splitChar sep cs ≠ [] := by
  cases cs with
  | nil => simp [splitChar]
  | cons c cs =>
    simp only [splitChar]
    split
    · simp
    · split <;> simp

theorem splitChar_of_not_mem {sep : Char} {cs : List Char} (h : sep ∉ cs) :
    splitChar sep cs = [cs] := by
  induction cs with
  | nil => rfl
  | cons c cs ih =>
    simp only [List.mem_cons, not_or] at h
    have hc : ¬c = sep := fun e => h.1 e.symm
    simp only [splitChar, if_neg hc, ih h.2]

theorem not_mem_of_mem_splitChar {sep : Char} {cs : List Char} :
    ∀ e ∈ splitChar sep cs, sep ∉ e := by
  induction cs with
  | nil => intro e he; simp [splitChar] at he; simp [he]
  | cons c cs ih =>
    intro e he
    simp only [splitChar] at he
    by_cases hc : c = sep
    · rw [if_pos hc] at he
      rcases List.mem_cons.mp he with h | h
      · simp [h]
      · exact ih e h
    · rw [if_neg hc] at he
      rcases hp : splitChar sep cs with _ | ⟨p, ps⟩
      · exact absurd hp (splitChar_ne_nil sep cs)
      · rw [hp] at he
        rcases List.mem_cons.mp he with h | h
        · subst h
          intro hmem
          rcases List.mem_cons.mp hmem with h | h
          · exact hc h.symm
          · exact ih p (by simp [hp]) h
        · exact ih e (by simp [hp, h])

theorem joinChar_splitChar (sep : Char) (cs : List Char) :
    joinChar sep (splitChar sep cs) = cs := by
  induction cs with
  | nil => rfl
  | cons c cs ih =>
    simp only [splitChar]
    by_cases hc : c = sep
    · rw [if_pos hc]
      rcases hp : splitChar sep cs with _ | ⟨p, ps⟩
      · exact absurd hp (splitChar_ne_nil sep cs)
      · rw [hp] at ih
        simp only [joinChar, hc]
        simp [ih]
    · rw [if_neg hc]
      rcases hp : splitChar sep cs with _ | ⟨p, ps⟩
      · exact absurd hp (splitChar_ne_nil sep cs)
      · rw [hp] at ih
        cases ps with
        | nil => simpa only [joinChar] using congrArg (c :: ·) ih
        | cons q qs => simpa only [joinChar] using congrArg (c :: ·) ih

theorem splitChar_append (sep : Char) (xs ys : List Char) :
    splitChar sep (xs ++ sep :: ys) = splitChar sep xs ++ splitChar sep ys := by
  induction xs with
  | nil => simp [splitChar]
  | cons c cs ih =>
    have hstep : (c :: cs) ++ sep :: ys = c :: (cs ++ sep :: ys) := rfl
    rw [hstep]
    by_cases hc : c = sep
    · simp only [splitChar, if_pos hc, ih, List.cons_append, List.nil_append]
    · simp only [splitChar, if_neg hc, ih]
      rcases hp : splitChar sep cs with _ | ⟨p, ps⟩
      · exact absurd hp (splitChar_ne_nil sep cs)
      · simp [hp]

/-! ## C1, C9, C10: module-name resolution -/

/-- C1: module-name resolution splits the manifest's first line on single
spaces and returns the token at index 1: on a manifest whose first line is
`module example.com/foo` it returns `example.com/foo`, and on every
manifest whose first line splits into fewer than two tokens it fails with
the parse error (`ManifestParseError`). -/
theorem getModuleName_split_spec :
    (∀ path, getModuleName manifestOkTree path = .ok "example.com/foo") ∧
    (∀ (tree : FSEntry) (path content : String),
      tree.rootFile "go.mod" = some content →
      (stringsSplitSpace (firstLine content)).length < 2 →
      getModuleName tree path = .error (.wrap "unable to parse module header" none)) := by
  constructor
  · intro path; rfl
  · intro tree path content hc hlen
    simp only [getModuleName, hc]
    rw [if_pos (by omega)]

/-- Witness for C1: the success case, a one-token first line, and a
tab-separated first line (which splits into a single token). -/
theorem getModuleName_split_spec_witness :
    getModuleName manifestOkTree "mod" = .ok "example.com/foo" ∧
    getModuleName (.dir "m" [.file "go.mod" "module"]) "m" =
      .error (.wrap "unable to parse module header" none) ∧
    getModuleName (.dir "m" [.file "go.mod" "module\tfoo"]) "m" =
      .error (.wrap "unable to parse module header" none) :=
  ⟨getModuleName_split_spec.1 "mod",
   getModuleName_split_spec.2 _ "m" "module" rfl (by decide),
   getModuleName_split_spec.2 _ "m" "module\tfoo" rfl (by decide)⟩

/-- C9: whenever module-name resolution succeeds, the returned module
name contains no space character: it is one element of a split on single
spaces. -/
theorem getModuleName_no_space (tree : FSEntry) (path name : String)
    (h : getModuleName tree path = .ok name) : ' ' ∉ name.data := by
  rcases hc : tree.rootFile "go.mod" with _ | content
  · simp only [getModuleName, hc] at h
    exact absurd h (by simp)
  · simp only [getModuleName, hc] at h
    by_cases hlen : (stringsSplitSpace (firstLine content)).length ≤ 1
    · rw [if_pos hlen] at h; exact absurd h (by simp)
    · rw [if_neg hlen] at h
      have hname : name = (stringsSplitSpace (firstLine content)).getD 1 "" := by
        cases h; rfl
      have hlt : 1 < (stringsSplitSpace (firstLine content)).length := by omega
      have hmem : (stringsSplitSpace (firstLine content)).getD 1 "" ∈
          stringsSplitSpace (firstLine content) := by
        rw [List.getD_eq_getElem _ _ hlt]
        exact List.getElem_mem hlt
      rw [hname]
      rcases List.mem_map.mp hmem with ⟨e, he, hmk⟩
      have : (⟨e⟩ : String).data = e := rfl
      rw [← hmk, this]
      exact not_mem_of_mem_splitChar e he

/-- Witness for C9: the resolved name of the concrete manifest has no
space. -/
theorem getModuleName_no_space_witness : ' ' ∉ "example.com/foo".data :=
  getModuleName_no_space manifestOkTree "mod" "example.com/foo" rfl

/-- C10: a manifest that opens successfully but whose first line has no
space character (in particular an empty manifest) fails through the
parse-error branch, and that parse error wraps a nil (`none`) underlying
error — the open error variable, which is nil at that point. -/
theorem getModuleName_parse_error_wraps_nil (tree : FSEntry) (path content : String)
    (hc : tree.rootFile "go.mod" = some content)
    (hs : ' ' ∉ (firstLine content).data) :
    getModuleName tree path = .error (.wrap "unable to parse module header" none) := by
  have hone : stringsSplitSpace (firstLine content) = [⟨(firstLine content).data⟩] := by
    simp only [stringsSplitSpace, splitChar_of_not_mem hs, List.map]
  simp only [getModuleName, hc]
  rw [if_pos (by rw [hone]; simp)]

/-- Witness for C10: an empty manifest file hits the parse branch with a
nil wrapped error. -/
theorem getModuleName_parse_error_wraps_nil_witness :
    getModuleName (.dir "m" [.file "go.mod" ""]) "m" =
      .error (.wrap "unable to parse module header" none) :=
  getModuleName_parse_error_wraps_nil _ "m" "" rfl (by decide)

/-! ## C2: archive contents exclude `.git`, no directory entries -/

/-- C2: the archive step walks exactly the regular files, pruning the
`.git` directory and adding no directory entries: on the example module
directory the produced `source.zip` holds exactly the entries
`example.com/foo@v1.0.0/a.txt` and `example.com/foo@v1.0.0/sub/b.txt`,
and nothing under `.git`. -/
theorem createZipArchive_excludes_git :
    createZipArchive ⟨exampleTree, [], []⟩ "mod" "example.com/foo" "v1.0.0" "out" =
      (⟨exampleTree,
        [("out/source.zip",
          .zipData ["example.com/foo@v1.0.0/a.txt", "example.com/foo@v1.0.0/sub/b.txt"],
          0o666)],
        []⟩,
       none) := rfl

/-! ## Lemmas about `filepath.Clean` and `filepath.Join` -/

theorem cleanPush_empty (rt : Bool) (out : List String) : cleanPush rt out "" = out := by
  simp [cleanPush]

theorem foldl_cleanPush_mid_empty (rt : Bool) (acc A B : List String) :
    List.foldl (cleanPush rt) acc (A ++ "" :: B) = List.foldl (cleanPush rt) acc (A ++ B) := by
  rw [List.foldl_append, List.foldl_append, List.foldl_cons, cleanPush_empty]

theorem stringsTrimPrefix_append (p q : String) : stringsTrimPrefix (p ++ q) p = q := by
  unfold stringsTrimPrefix
  rw [String.data_append,
    if_pos ((List.isPrefixOf_iff_prefix).mpr (List.prefix_append p.data q.data)),
    List.drop_left]

theorem filepathJoin2_eq_clean (a b : String) (ha : a ≠ "") :
    filepathJoin2 a b = filepathClean (a ++ "/" ++ b) := by
  have hd : (decide (a = "")) = false := by simp [ha]
  simp only [filepathJoin2, filepathJoin, List.dropWhile_cons, hd, Bool.false_eq_true,
    if_false, joinWithSlash]

/-- Collapsing a doubled separator: `filepath.Clean` gives the same
result whether or not an extra `'/'` follows the first one. -/
theorem filepathClean_double_slash (c : Char) (cs r : List Char) :
    filepathClean ⟨c :: (cs ++ '/' :: '/' :: r)⟩ = filepathClean ⟨c :: (cs ++ '/' :: r)⟩ := by
  have hne1 : (⟨c :: (cs ++ '/' :: '/' :: r)⟩ : String) ≠ "" := by
    intro h
    have h2 : c :: (cs ++ '/' :: '/' :: r) = ([] : List Char) := congrArg String.data h
    simp at h2
  have hne2 : (⟨c :: (cs ++ '/' :: r)⟩ : String) ≠ "" := by
    intro h
    have h2 : c :: (cs ++ '/' :: r) = ([] : List Char) := congrArg String.data h
    simp at h2
  have hsplit1 : splitChar '/' (c :: (cs ++ '/' :: '/' :: r))
      = splitChar '/' (c :: cs) ++ [] :: splitChar '/' r := by
    rw [show c :: (cs ++ '/' :: '/' :: r) = (c :: cs) ++ '/' :: ('/' :: r) from rfl,
      splitChar_append]
    congr 1
  have hsplit2 : splitChar '/' (c :: (cs ++ '/' :: r))
      = splitChar '/' (c :: cs) ++ splitChar '/' r := by
    rw [show c :: (cs ++ '/' :: r) = (c :: cs) ++ '/' :: r from rfl, splitChar_append]
  simp only [filepathClean, if_neg hne1, if_neg hne2, hsplit1, hsplit2,
    List.head?_cons, List.map_append, List.map_cons, cleanElems]
  rw [show (⟨[]⟩ : String) = "" from rfl, foldl_cleanPush_mid_empty]

theorem filepathJoin2_drop_leading_slash (a b : String) (ha : a ≠ "") :
    filepathJoin2 a ("/" ++ b) = filepathJoin2 a b := by
  rw [filepathJoin2_eq_clean a _ ha, filepathJoin2_eq_clean a b ha]
  obtain ⟨c, cs, hx⟩ : ∃ c cs, a.data = c :: cs := by
    rcases hd : a.data with _ | ⟨c, cs⟩
    · exact absurd (String.ext hd) ha
    · exact ⟨c, cs, rfl⟩
  have e1 : a ++ "/" ++ ("/" ++ b) = (⟨c :: (cs ++ '/' :: '/' :: b.data)⟩ : String) := by
    rw [String.ext_iff]
    simp [String.data_append, hx]
  have e2 : a ++ "/" ++ b = (⟨c :: (cs ++ '/' :: b.data)⟩ : String) := by
    rw [String.ext_iff]
    simp [String.data_append, hx]
  rw [e1, e2, filepathClean_double_slash]

theorem foldl_cleanPush_normal (rt : Bool) (l : List String)
    (h : ∀ e ∈ l, isNormalComponent e = true) (acc : List String) :
    l.foldl (cleanPush rt) acc = l.reverse ++ acc := by
  induction l generalizing acc with
  | nil => simp
  | cons e es ih =>
    have he := h e (by simp)
    simp only [isNormalComponent, Bool.not_eq_true', Bool.or_eq_false_iff,
      decide_eq_false_iff_not] at he
    have hpush : cleanPush rt acc e = e :: acc := by
      simp [cleanPush, he.1.1, he.1.2, he.2]
    rw [List.foldl_cons, hpush, ih (fun x hx => h x (by simp [hx]))]
    simp

theorem joinWithSlash_map_mk (l : List (List Char)) :
    joinWithSlash (l.map (fun x => (⟨x⟩ : String))) = ⟨joinChar '/' l⟩ := by
  induction l with
  | nil => rfl
  | cons x xs ih =>
    cases xs with
    | nil => rfl
    | cons y ys =>
      have step : joinWithSlash ((x :: y :: ys).map (fun z => (⟨z⟩ : String)))
          = (⟨x⟩ : String) ++ "/" ++ joinWithSlash ((y :: ys).map (fun z => (⟨z⟩ : String))) := rfl
      rw [step, ih, String.ext_iff]
      simp [String.data_append, joinChar]

/-- `filepath.Clean` is the identity on a nonempty relative path all of
whose elements are normal (no empty, `"."` or `".."` element). -/
theorem filepathClean_normal (s : String) (hs : s ≠ "")
    (hr : ¬s.data.head? = some '/')
    (hn : ∀ e ∈ splitChar '/' s.data, isNormalComponent ⟨e⟩ = true) :
    filepathClean s = s := by
  simp only [filepathClean, if_neg hs, if_neg hr]
  have hclean : cleanElems (decide (s.data.head? = some '/'))
      ((splitChar '/' s.data).map (fun l => (⟨l⟩ : String)))
      = (splitChar '/' s.data).map (fun l => (⟨l⟩ : String)) := by
    unfold cleanElems
    rw [foldl_cleanPush_normal]
    · simp
    · intro e he
      rcases List.mem_map.mp he with ⟨x, hx, rfl⟩
      exact hn x hx
  rw [hclean, joinWithSlash_map_mk, joinChar_splitChar,
    show (⟨s.data⟩ : String) = s from rfl, if_neg hs]

/-! ## C8 and C4: the `getZipPath` prefix-strip artifact -/

/-- C8: archive-entry path computation is insensitive to a trailing
separator on the module path: for a walked file path `p ++ "/" ++ rel`
under the module path `p`, stripping with `p` and with `p ++ "/"` give
the same final entry path, because `filepath.Join` cleans the leading
separator that the literal prefix strip leaves behind. -/
theorem getZipPath_trailing_sep_insensitive (p rel n v : String) :
    getZipPath p (p ++ "/" ++ rel) n v = getZipPath (p ++ "/") (p ++ "/" ++ rel) n v := by
  have ha : n ++ "@" ++ v ≠ "" := by
    intro h
    have h2 : (n ++ "@" ++ v).data = ([] : List Char) := congrArg String.data h
    simp [String.data_append] at h2
  have t1 : stringsTrimPrefix (p ++ "/" ++ rel) p = "/" ++ rel := by
    rw [String.append_assoc]
    exact stringsTrimPrefix_append p ("/" ++ rel)
  have t2 : stringsTrimPrefix (p ++ "/" ++ rel) (p ++ "/") = rel :=
    stringsTrimPrefix_append (p ++ "/") rel
  simp only [getZipPath, t1, t2]
  exact filepathJoin2_drop_leading_slash _ rel ha

/-- C4 as stated is false on the code: at this concrete input the
stripped path does retain its leading separator, but the final entry
path is `example.com/foo@v1.0.0/a.txt` — not the artifact-carrying
`example.com/foo@v1.0.0//a.txt` that joining the stripped path as-is
would produce. -/
theorem getZipPath_artifact_counterexample :
    stringsTrimPrefix "/home/user/mod/a.txt" "/home/user/mod" = "/a.txt" ∧
    getZipPath "/home/user/mod" "/home/user/mod/a.txt" "example.com/foo" "v1.0.0" =
      "example.com/foo@v1.0.0/a.txt" ∧
    getZipPath "/home/user/mod" "/home/user/mod/a.txt" "example.com/foo" "v1.0.0" ≠
      "example.com/foo@v1.0.0" ++ "/" ++
        stringsTrimPrefix "/home/user/mod/a.txt" "/home/user/mod" :=
  ⟨by decide, by decide, by decide⟩

/-- C4 corrected: the literal string-prefix strip does leave a leading
separator on the stripped path, but `filepath.Join` cleans it away, so
(for a normal relative path and module name) the final entry path is
`<moduleName>@<version>/<relativePath>` with no leading-separator
artifact. -/
theorem getZipPath_strip_artifact_cleaned (p rel n v : String)
    (hr : ¬(n ++ "@" ++ v).data.head? = some '/')
    (hn : ∀ e ∈ splitChar '/' ((n ++ "@" ++ v) ++ "/" ++ rel).data,
      isNormalComponent ⟨e⟩ = true) :
    stringsTrimPrefix (p ++ "/" ++ rel) p = "/" ++ rel ∧
    getZipPath p (p ++ "/" ++ rel) n v = (n ++ "@" ++ v) ++ "/" ++ rel := by
  have ha : n ++ "@" ++ v ≠ "" := by
    intro h
    have h2 : (n ++ "@" ++ v).data = ([] : List Char) := congrArg String.data h
    simp [String.data_append] at h2
  have t1 : stringsTrimPrefix (p ++ "/" ++ rel) p = "/" ++ rel := by
    rw [String.append_assoc]
    exact stringsTrimPrefix_append p ("/" ++ rel)
  refine ⟨t1, ?_⟩
  obtain ⟨c, cs, hx⟩ : ∃ c cs, (n ++ "@" ++ v).data = c :: cs := by
    rcases hd : (n ++ "@" ++ v).data with _ | ⟨c, cs⟩
    · exact absurd (String.ext hd) ha
    · exact ⟨c, cs, rfl⟩
  have hs : (n ++ "@" ++ v) ++ "/" ++ rel ≠ "" := by
    intro h
    have h2 : ((n ++ "@" ++ v) ++ "/" ++ rel).data = ([] : List Char) := congrArg String.data h
    simp [String.data_append, hx] at h2
  have hhead : ¬((n ++ "@" ++ v) ++ "/" ++ rel).data.head? = some '/' := by
    have hd : ((n ++ "@" ++ v) ++ "/" ++ rel).data = c :: (cs ++ '/' :: rel.data) := by
      simp [String.data_append, hx]
    rw [hd, List.head?_cons]
    rw [hx, List.head?_cons] at hr
    exact hr
  simp only [getZipPath, t1]
  rw [filepathJoin2_drop_leading_slash _ _ ha, filepathJoin2_eq_clean _ _ ha]
  exact filepathClean_normal _ hs hhead hn

/-- Witness for the corrected C4: a concrete strip retaining the leading
separator and a concrete artifact-free final entry path. -/
theorem getZipPath_strip_artifact_cleaned_witness :
    stringsTrimPrefix ("mod" ++ "/" ++ "a.txt") "mod" = "/" ++ "a.txt" ∧
    getZipPath "mod" ("mod" ++ "/" ++ "a.txt") "example.com/foo" "v1.0.0" =
      ("example.com/foo" ++ "@" ++ "v1.0.0") ++ "/" ++ "a.txt" :=
  getZipPath_strip_artifact_cleaned "mod" "a.txt" "example.com/foo" "v1.0.0"
    (by decide) (by decide)

/-! ## C5: the manifest-copy step -/

theorem readOut_writeOut (store : List (String × FileData × Nat)) (p : String)
    (d : FileData) (m : Nat) :
    readOut (writeOut store p d m) p = some (d, m) := by
  unfold writeOut
  rcases hany : store.any (fun e => e.1 = p) with _ | _
  · simp only [Bool.false_eq_true, if_false]
    induction store with
    | nil => simp [readOut]
    | cons e es ih =>
      simp only [List.any_cons, Bool.or_eq_false_iff, decide_eq_false_iff_not] at hany
      simp only [List.cons_append, readOut, if_neg hany.1]
      exact ih hany.2
  · simp only [if_true]
    induction store with
    | nil => simp at hany
    | cons e es ih =>
      simp only [List.any_cons, Bool.or_eq_true, decide_eq_true_eq] at hany
      simp only [List.map_cons]
      by_cases he : e.1 = p
      · simp [readOut, he]
      · rw [if_neg he]
        simp only [readOut, if_neg he]
        apply ih
        rcases hany with h | h
        · exact absurd h he
        · simpa using h

/-- C5: the manifest-copy step is a no-op exactly when `outputDirectory`
is the literal `"."` or the joined source and destination manifest paths
are equal; in every other case it writes a byte-identical copy of the
source manifest to `<outputDirectory>/go.mod` with non-executable `0644`
permissions, overwriting whatever was stored there before. -/
theorem copyModuleFile_spec (w : World) (path out : String) :
    ((out = "." ∨ filepathJoin2 path "go.mod" = filepathJoin2 out "go.mod") →
      copyModuleFile w path out = (w, none)) ∧
    (¬(out = "." ∨ filepathJoin2 path "go.mod" = filepathJoin2 out "go.mod") →
      ∀ c, w.tree.rootFile "go.mod" = some c →
        filepathJoin2 out "go.mod" ∉ w.createDenied →
        copyModuleFile w path out =
          ({w with out := writeOut w.out (filepathJoin2 out "go.mod") (.textData c) 0o644},
           none) ∧
        readOut (writeOut w.out (filepathJoin2 out "go.mod") (.textData c) 0o644)
          (filepathJoin2 out "go.mod") = some (.textData c, 0o644)) := by
  constructor
  · intro h
    rcases h with h | h
    · simp [copyModuleFile, h]
    · unfold copyModuleFile
      by_cases hdot : out = "."
      · simp [hdot]
      · rw [if_neg hdot, if_pos h]
  · intro h c hc hdenied
    push_neg at h
    unfold copyModuleFile
    rw [if_neg h.1, if_neg h.2]
    simp only [hc]
    rw [if_neg hdenied]
    exact ⟨rfl, readOut_writeOut w.out (filepathJoin2 out "go.mod") (.textData c) 0o644⟩

/-- Witness for C5: skipping on `"."`, and an actual overwriting copy
with `0644`. -/
theorem copyModuleFile_spec_witness :
    copyModuleFile copyWorld "mod" "." = (copyWorld, none) ∧
    (copyModuleFile copyWorld "mod" "out" =
      ({copyWorld with
          out := writeOut copyWorld.out (filepathJoin2 "out" "go.mod")
            (.textData "module m/x\n") 0o644}, none) ∧
      readOut (writeOut copyWorld.out (filepathJoin2 "out" "go.mod")
          (.textData "module m/x\n") 0o644)
        (filepathJoin2 "out" "go.mod") = some (.textData "module m/x\n", 0o644)) :=
  ⟨(copyModuleFile_spec copyWorld "mod" ".").1 (Or.inl rfl),
   (copyModuleFile_spec copyWorld "mod" "out").2 (by decide) "module m/x\n" rfl (by decide)⟩

/-! ## C6: first-failure abort -/

/-- C6: `Module` aborts at the first failing step, wrapping that step's
error with a step-identifying message, runs no later step and cleans up
nothing: when module-name resolution fails the filesystem is returned
untouched (no archive, info file or manifest copy), and when resolution
succeeds but the archive file cannot be created the pipeline stops there
with the wrapped archive error and the filesystem again untouched. -/
theorem Module_aborts_first_failure (w : World) (path version out : String) (now : DateTime) :
    (∀ e, getModuleName w.tree path = .error e →
      Module w path version out now =
        (w, some (.wrap "could not get module name" (some e)))) ∧
    (∀ name, getModuleName w.tree path = .ok name →
      filepathJoin2 out "source.zip" ∈ w.createDenied →
      Module w path version out now =
        (w, some (.wrap "could not create zip archive"
          (some (.wrap "unable to create zip file"
            (some (.msg ("open " ++ filepathJoin2 out "source.zip")))))))) := by
  constructor
  · intro e he
    simp [Module, he]
  · intro name hname hdenied
    simp only [Module, hname]
    unfold createZipArchive
    rw [if_pos hdenied]

/-- Witness for C6: a missing manifest aborts before any artifact is
written, and a failing archive creation aborts before the info and copy
steps, each with its step-identifying wrap. -/
theorem Module_aborts_first_failure_witness :
    Module noManifestWorld "mod" "v1" "out" ⟨2026, 1, 9, 7, 5, 30⟩ =
      (noManifestWorld, some (.wrap "could not get module name"
        (some (.wrap "unable to open module file"
          (some (.msg ("open " ++ filepathJoin2 "mod" "go.mod"))))))) ∧
    Module deniedZipWorld "mod" "v1" "out" ⟨2026, 1, 9, 7, 5, 30⟩ =
      (deniedZipWorld, some (.wrap "could not create zip archive"
        (some (.wrap "unable to create zip file"
          (some (.msg ("open " ++ filepathJoin2 "out" "source.zip"))))))) :=
  ⟨(Module_aborts_first_failure noManifestWorld "mod" "v1" "out" _).1 _ rfl,
   (Module_aborts_first_failure deniedZipWorld "mod" "v1" "out" _).2 "m/x" rfl (by decide)⟩

/-! ## JSON escaping round-trip -/

theorem hexVal_hexDigitChar : ∀ m, m < 16 → hexVal (hexDigitChar m) = some m := by decide

theorem hexDigitChar_ne_quote : ∀ m, m < 16 → ¬hexDigitChar m = '"' := by decide

theorem hexDigitChar_ne_backslash : ∀ m, m < 16 → ¬hexDigitChar m = '\\' := by decide

theorem scan_cons (c : Char) (t : List Char) :
    scanJSONString (c :: t) =
      if c = '"' then some ([], t)
      else if c = '\\' then
        match t with
        | [] => none
        | c2 :: t2 => (scanJSONString t2).map (fun r => (c :: c2 :: r.1, r.2))
      else (scanJSONString t).map (fun r => (c :: r.1, r.2)) := by
  rw [scanJSONString.eq_def]

theorem unescape_cons (c : Char) (t : List Char) :
    jsonUnescape (c :: t) =
      (if c = '\\' then
        match t with
        | [] => none
        | c2 :: t2 =>
          if c2 = '"' then (jsonUnescape t2).map (fun l => '"' :: l)
          else if c2 = '\\' then (jsonUnescape t2).map (fun l => '\\' :: l)
          else if c2 = 'n' then (jsonUnescape t2).map (fun l => '\n' :: l)
          else if c2 = 'r' then (jsonUnescape t2).map (fun l => '\r' :: l)
          else if c2 = 't' then (jsonUnescape t2).map (fun l => '\t' :: l)
          else if c2 = 'u' then
            match t2 with
            | a :: b :: c3 :: d :: t3 =>
              match hexVal a, hexVal b, hexVal c3, hexVal d with
              | some va, some vb, some vc, some vd =>
                (jsonUnescape t3).map
                  (fun l => Char.ofNat (((va * 16 + vb) * 16 + vc) * 16 + vd) :: l)
              | _, _, _, _ => none
            | _ => none
          else none
      else (jsonUnescape t).map (fun l => c :: l)) := by
  rw [jsonUnescape.eq_def]

theorem scan_cons_plain (c : Char) (X : List Char) (hc1 : ¬c = '"') (hc2 : ¬c = '\\') :
    scanJSONString (c :: X) = (scanJSONString X).map (fun r => (c :: r.1, r.2)) := by
  simp only [scan_cons, if_neg hc1, if_neg hc2]

theorem scan_cons_escaped (c2 : Char) (X : List Char) :
    scanJSONString ('\\' :: c2 :: X) =
      (scanJSONString X).map (fun r => ('\\' :: c2 :: r.1, r.2)) := by
  simp [scan_cons]

theorem unescape_cons_plain (c : Char) (X : List Char) (hc : ¬c = '\\') :
    jsonUnescape (c :: X) = (jsonUnescape X).map (fun l => c :: l) := by
  simp only [unescape_cons, if_neg hc]

/-- Scanning one escaped character consumes exactly its escape. -/
theorem scan_escape_step (c : Char) (REST : List Char) :
    scanJSONString (jsonEscapeChar c ++ REST) =
      (scanJSONString REST).map (fun r => (jsonEscapeChar c ++ r.1, r.2)) := by
  by_cases h1 : c = '"'
  · subst h1
    simp [jsonEscapeChar, scan_cons_escaped]
  · by_cases h2 : c = '\\'
    · subst h2
      simp [jsonEscapeChar, scan_cons_escaped]
    · by_cases h3 : c = '\n'
      · subst h3
        simp [jsonEscapeChar, scan_cons_escaped]
      · by_cases h4 : c = '\r'
        · subst h4
          simp [jsonEscapeChar, scan_cons_escaped]
        · by_cases h5 : c = '\t'
          · subst h5
            simp [jsonEscapeChar, scan_cons_escaped]
          · by_cases h6 : c.toNat < 0x20 ∨ c = '<' ∨ c = '>' ∨ c = '&'
            · have hdiv : c.toNat / 16 < 16 := by
                rcases h6 with h | h | h | h
                · omega
                · subst h; decide
                · subst h; decide
                · subst h; decide
              have hmod : c.toNat % 16 < 16 := Nat.mod_lt _ (by norm_num)
              simp only [jsonEscapeChar, if_neg h1, if_neg h2, if_neg h3, if_neg h4,
                if_neg h5, if_pos h6, List.cons_append, List.nil_append]
              rw [scan_cons_escaped,
                scan_cons_plain '0' _ (by decide) (by decide),
                scan_cons_plain '0' _ (by decide) (by decide),
                scan_cons_plain _ _ (hexDigitChar_ne_quote _ hdiv) (hexDigitChar_ne_backslash _ hdiv),
                scan_cons_plain _ _ (hexDigitChar_ne_quote _ hmod) (hexDigitChar_ne_backslash _ hmod)]
              rcases scanJSONString REST with _ | r <;> rfl
            · by_cases h7 : c.toNat = 0x2028 ∨ c.toNat = 0x2029
              · have hmod : c.toNat % 16 < 16 := Nat.mod_lt _ (by norm_num)
                simp only [jsonEscapeChar, if_neg h1, if_neg h2, if_neg h3, if_neg h4,
                  if_neg h5, if_neg h6, if_pos h7, List.cons_append, List.nil_append]
                rw [scan_cons_escaped,
                  scan_cons_plain '2' _ (by decide) (by decide),
                  scan_cons_plain '0' _ (by decide) (by decide),
                  scan_cons_plain '2' _ (by decide) (by decide),
                  scan_cons_plain _ _ (hexDigitChar_ne_quote _ hmod) (hexDigitChar_ne_backslash _ hmod)]
                rcases scanJSONString REST with _ | r <;> rfl
              · simp only [jsonEscapeChar, if_neg h1, if_neg h2, if_neg h3, if_neg h4,
                  if_neg h5, if_neg h6, if_neg h7, List.cons_append, List.nil_append]
                rw [scan_cons_plain c _ h1 h2]

/-- Scanning a fully escaped body stops exactly at the closing quote. -/
theorem scan_flatMap_escape (l rest : List Char) :
    scanJSONString (l.flatMap jsonEscapeChar ++ '"' :: rest) =
      some (l.flatMap jsonEscapeChar, rest) := by
  induction l with
  | nil => simp [scan_cons]
  | cons c l ih =>
    rw [List.flatMap_cons, List.append_assoc, scan_escape_step, ih]
    simp

/-- Unescaping one escaped character restores it. -/
theorem hexVal_zero : hexVal '0' = some 0 := by decide

theorem hexVal_two : hexVal '2' = some 2 := by decide

/-- Unescaping a `\uXXXX` escape decodes its four hex digits. -/
theorem unescape_u (a b c3 d : Char) (X : List Char) (va vb vc vd : Nat)
    (ha : hexVal a = some va) (hb : hexVal b = some vb)
    (hc : hexVal c3 = some vc) (hd : hexVal d = some vd) :
    jsonUnescape ('\\' :: 'u' :: a :: b :: c3 :: d :: X) =
      (jsonUnescape X).map
        (fun l => Char.ofNat (((va * 16 + vb) * 16 + vc) * 16 + vd) :: l) := by
  rw [unescape_cons, if_pos (rfl : ('\\' : Char) = '\\')]
  simp only [ha, hb, hc, hd,
    show ¬('u' : Char) = '"' from by decide,
    show ¬('u' : Char) = '\\' from by decide,
    show ¬('u' : Char) = 'n' from by decide,
    show ¬('u' : Char) = 'r' from by decide,
    show ¬('u' : Char) = 't' from by decide,
    ite_false, ite_true, if_neg, if_pos]

theorem unescape_escape_step (c : Char) (REST : List Char) :
    jsonUnescape (jsonEscapeChar c ++ REST) = (jsonUnescape REST).map (fun l => c :: l) := by
  by_cases h1 : c = '"'
  · subst h1
    simp [jsonEscapeChar, unescape_cons]
  · by_cases h2 : c = '\\'
    · subst h2
      simp [jsonEscapeChar, unescape_cons]
    · by_cases h3 : c = '\n'
      · subst h3
        simp [jsonEscapeChar, unescape_cons]
      · by_cases h4 : c = '\r'
        · subst h4
          simp [jsonEscapeChar, unescape_cons]
        · by_cases h5 : c = '\t'
          · subst h5
            simp [jsonEscapeChar, unescape_cons]
          · by_cases h6 : c.toNat < 0x20 ∨ c = '<' ∨ c = '>' ∨ c = '&'
            · have hdiv : c.toNat / 16 < 16 := by
                rcases h6 with h | h | h | h
                · omega
                · subst h; decide
                · subst h; decide
                · subst h; decide
              have hmod : c.toNat % 16 < 16 := Nat.mod_lt _ (by norm_num)
              have harith : ((0 * 16 + 0) * 16 + c.toNat / 16) * 16 + c.toNat % 16 = c.toNat := by
                omega
              simp only [jsonEscapeChar, if_neg h1, if_neg h2, if_neg h3, if_neg h4,
                if_neg h5, if_pos h6, List.cons_append, List.nil_append]
              rw [unescape_u _ _ _ _ _ _ _ _ _ hexVal_zero hexVal_zero
                (hexVal_hexDigitChar _ hdiv) (hexVal_hexDigitChar _ hmod)]
              simp only [harith, Char.ofNat_toNat]
            · by_cases h7 : c.toNat = 0x2028 ∨ c.toNat = 0x2029
              · have hmod : c.toNat % 16 < 16 := Nat.mod_lt _ (by norm_num)
                have harith : ((2 * 16 + 0) * 16 + 2) * 16 + c.toNat % 16 = c.toNat := by
                  rcases h7 with h | h <;> omega
                simp only [jsonEscapeChar, if_neg h1, if_neg h2, if_neg h3, if_neg h4,
                  if_neg h5, if_neg h6, if_pos h7, List.cons_append, List.nil_append]
                rw [unescape_u _ _ _ _ _ _ _ _ _ hexVal_two hexVal_zero hexVal_two
                  (hexVal_hexDigitChar _ hmod)]
                simp only [harith, Char.ofNat_toNat]
              · simp only [jsonEscapeChar, if_neg h1, if_neg h2, if_neg h3, if_neg h4,
                  if_neg h5, if_neg h6, if_neg h7, List.cons_append, List.nil_append]
                rw [unescape_cons_plain c _ h2]

/-- Unescaping a fully escaped character list restores the original. -/
theorem unescape_flatMap_escape (l : List Char) :
    jsonUnescape (l.flatMap jsonEscapeChar) = some l := by
  induction l with
  | nil => rfl
  | cons c l ih =>
    rw [List.flatMap_cons, unescape_escape_step, ih]
    rfl

theorem expectPrefix_append (pre rest : List Char) :
    expectPrefix pre (pre ++ rest) = some rest := by
  unfold expectPrefix
  rw [if_pos ((List.isPrefixOf_iff_prefix).mpr (List.prefix_append pre rest)), List.drop_left]

theorem flatMap_escape_Version : "Version".data.flatMap jsonEscapeChar = "Version".data := by
  decide

theorem flatMap_escape_Time : "Time".data.flatMap jsonEscapeChar = "Time".data := by
  decide

/-- The marshalled info record, split at the tokens the parser consumes. -/
theorem jsonMarshalInfo_decomp (v t : String) :
    (jsonMarshalInfo v t).data =
      ('\x7b' :: '"' :: ("Version".data ++ ['"', ':', '"'])) ++
        (v.data.flatMap jsonEscapeChar ++ '"' ::
          ((',' :: '"' :: ("Time".data ++ ['"', ':', '"'])) ++
            (t.data.flatMap jsonEscapeChar ++ '"' :: ['\x7d']))) := by
  simp [jsonMarshalInfo, jsonQuote, jsonEscapeChar]

/-- Round trip: parsing the marshalled info record recovers the version
and time strings exactly. -/
theorem parseInfoFile_marshal (v t : String) :
    parseInfoFile (jsonMarshalInfo v t) = some (v, t) := by
  simp only [parseInfoFile, jsonMarshalInfo_decomp, expectPrefix_append, Option.some_bind,
    scan_flatMap_escape, unescape_flatMap_escape]
  simp

/-- The marshalled record's last byte is the closing brace: in
particular there is no trailing newline. -/
theorem jsonMarshalInfo_getLast (v t : String) :
    (jsonMarshalInfo v t).data.getLast? = some '\x7d' := by
  have hsplit : (jsonMarshalInfo v t).data =
      ('\x7b' :: jsonQuote "Version" ++ ':' :: jsonQuote v ++
        ',' :: jsonQuote "Time" ++ ':' :: jsonQuote t) ++ ['\x7d'] := by
    simp [jsonMarshalInfo, List.append_assoc]
  rw [hsplit, List.getLast?_concat]

/-! ## The formatted time matches `YYYY-MM-DDTHH:MM:SSZ` -/

theorem digitChar_isDigit : ∀ m, m < 10 → (digitChar m).isDigit = true := by decide

theorem natDigitsAux_all_digit (n : Nat) (acc : List Char)
    (hacc : ∀ c ∈ acc, c.isDigit = true) :
    ∀ c ∈ natDigitsAux n acc, c.isDigit = true := by
  induction n using Nat.strong_induction_on generalizing acc with
  | _ n ih =>
    rw [natDigitsAux.eq_def]
    split
    · exact hacc
    · rename_i hne
      apply ih _ (Nat.div_lt_self (Nat.pos_of_ne_zero hne) (by norm_num))
      intro c hc
      rcases List.mem_cons.mp hc with h | h
      · subst h
        exact digitChar_isDigit _ (Nat.mod_lt _ (by norm_num))
      · exact hacc c h

theorem natDigitsAux_length (k : Nat) :
    ∀ n acc, n < 10 ^ k → (natDigitsAux n acc).length ≤ k + acc.length := by
  induction k with
  | zero =>
    intro n acc h
    rw [natDigitsAux.eq_def, dif_pos (by omega)]
    omega
  | succ k ih =>
    intro n acc h
    rw [natDigitsAux.eq_def]
    split
    · omega
    · have hlt : n / 10 < 10 ^ k := by
        rw [Nat.div_lt_iff_lt_mul (by norm_num : 0 < 10)]
        calc n < 10 ^ (k + 1) := h
        _ = 10 ^ k * 10 := pow_succ 10 k
      have := ih (n / 10) (digitChar (n % 10) :: acc) hlt
      simp only [List.length_cons] at this
      omega

theorem natDigits_all_digit (n : Nat) : ∀ c ∈ natDigits n, c.isDigit = true := by
  unfold natDigits
  split
  · intro c hc
    simp only [List.mem_singleton] at hc
    subst hc
    decide
  · exact natDigitsAux_all_digit n [] (by simp)

theorem natDigits_length (n k : Nat) (h : n < 10 ^ k) (hk : 1 ≤ k) :
    (natDigits n).length ≤ k := by
  unfold natDigits
  split
  · simpa using hk
  · simpa using natDigitsAux_length k n [] h

theorem padWidth_length (w : Nat) (ds : List Char) (h : ds.length ≤ w) :
    (padWidth w ds).length = w := by
  simp only [padWidth, List.length_append, List.length_replicate]
  omega

theorem padWidth_all_digit (w : Nat) (ds : List Char)
    (h : ∀ c ∈ ds, c.isDigit = true) : ∀ c ∈ padWidth w ds, c.isDigit = true := by
  intro c hc
  rcases List.mem_append.mp hc with h2 | h2
  · rw [List.eq_of_mem_replicate h2]
    decide
  · exact h c h2

/-- The zero-padded field of a bounded number: exactly `w` digit
characters. -/
theorem padded_field (w n : Nat) (hw : 1 ≤ w) (h : n < 10 ^ w) :
    (padWidth w (natDigits n)).length = w ∧
      ∀ c ∈ padWidth w (natDigits n), c.isDigit = true :=
  ⟨padWidth_length w _ (natDigits_length n w h hw),
   padWidth_all_digit w _ (natDigits_all_digit n)⟩

theorem exists_len2 {l : List Char} (h : l.length = 2) : ∃ a b, l = [a, b] := by
  rcases l with _ | ⟨a, _ | ⟨b, _ | ⟨c, tl⟩⟩⟩
  · simp at h
  · simp at h
  · exact ⟨a, b, rfl⟩
  · simp only [List.length_cons] at h
    omega

theorem exists_len4 {l : List Char} (h : l.length = 4) : ∃ a b c d, l = [a, b, c, d] := by
  rcases l with _ | ⟨a, l1⟩
  · simp at h
  · have h1 : l1.length = 3 := by simpa using h
    rcases l1 with _ | ⟨b, l2⟩
    · simp at h1
    · have h2 : l2.length = 2 := by simpa using h1
      obtain ⟨c, d, rfl⟩ := exists_len2 h2
      exact ⟨a, b, c, d, rfl⟩

/-- The formatted packaging time always has the documented
`YYYY-MM-DDTHH:MM:SSZ` shape for in-range time fields. -/
theorem formattedTime_matches (t : DateTime)
    (hy : t.year < 10000) (hmo : t.month < 100) (hd : t.day < 100)
    (hh : t.hour < 100) (hmi : t.minute < 100) (hs : t.second < 100) :
    matchesInfoTimePattern (getInfoFileFormattedTime t) = true := by
  obtain ⟨hylen, hydig⟩ := padded_field 4 t.year (by norm_num) (by norm_num; omega)
  obtain ⟨hmolen, hmodig⟩ := padded_field 2 t.month (by norm_num) (by norm_num; omega)
  obtain ⟨hdlen, hddig⟩ := padded_field 2 t.day (by norm_num) (by norm_num; omega)
  obtain ⟨hhlen, hhdig⟩ := padded_field 2 t.hour (by norm_num) (by norm_num; omega)
  obtain ⟨hmilen, hmidig⟩ := padded_field 2 t.minute (by norm_num) (by norm_num; omega)
  obtain ⟨hslen, hsdig⟩ := padded_field 2 t.second (by norm_num) (by norm_num; omega)
  obtain ⟨y1, y2, y3, y4, hy4⟩ := exists_len4 hylen
  obtain ⟨m1, m2, hm2⟩ := exists_len2 hmolen
  obtain ⟨d1, d2, hd2⟩ := exists_len2 hdlen
  obtain ⟨h1, h2, hh2⟩ := exists_len2 hhlen
  obtain ⟨n1, n2, hn2⟩ := exists_len2 hmilen
  obtain ⟨s1, s2, hs2⟩ := exists_len2 hslen
  have hdata : (getInfoFileFormattedTime t).data =
      [y1, y2, y3, y4, '-', m1, m2, '-', d1, d2, 'T',
        h1, h2, ':', n1, n2, ':', s1, s2, 'Z'] := by
    show (padWidth 4 (natDigits t.year) ++ '-' :: padWidth 2 (natDigits t.month) ++
      '-' :: padWidth 2 (natDigits t.day) ++ 'T' :: padWidth 2 (natDigits t.hour) ++
      ':' :: padWidth 2 (natDigits t.minute) ++ ':' :: padWidth 2 (natDigits t.second) ++
      ['Z']) = _
    rw [hy4, hm2, hd2, hh2, hn2, hs2]
    rfl
  have ey1 : y1.isDigit = true := hydig y1 (by rw [hy4]; simp)
  have ey2 : y2.isDigit = true := hydig y2 (by rw [hy4]; simp)
  have ey3 : y3.isDigit = true := hydig y3 (by rw [hy4]; simp)
  have ey4 : y4.isDigit = true := hydig y4 (by rw [hy4]; simp)
  have em1 : m1.isDigit = true := hmodig m1 (by rw [hm2]; simp)
  have em2 : m2.isDigit = true := hmodig m2 (by rw [hm2]; simp)
  have ed1 : d1.isDigit = true := hddig d1 (by rw [hd2]; simp)
  have ed2 : d2.isDigit = true := hddig d2 (by rw [hd2]; simp)
  have eh1 : h1.isDigit = true := hhdig h1 (by rw [hh2]; simp)
  have eh2 : h2.isDigit = true := hhdig h2 (by rw [hh2]; simp)
  have en1 : n1.isDigit = true := hmidig n1 (by rw [hn2]; simp)
  have en2 : n2.isDigit = true := hmidig n2 (by rw [hn2]; simp)
  have es1 : s1.isDigit = true := hsdig s1 (by rw [hs2]; simp)
  have es2 : s2.isDigit = true := hsdig s2 (by rw [hs2]; simp)
  rw [matchesInfoTimePattern, hdata]
  simp [ey1, ey2, ey3, ey4, em1, em2, ed1, ed2, eh1, eh2, en1, en2, es1, es2]

/-! ## C3: the info file -/

/-- C3: the info file written to `<outputDirectory>/<version>.info` is
exactly the flat JSON object `{"Version":...,"Time":...}`: parsing it
back yields the caller-supplied version verbatim and a `Time` field of
the exact shape `YYYY-MM-DDTHH:MM:SSZ`; the strict parse also certifies
there are no other fields and no nesting, and the last byte is the
closing brace — no trailing newline. -/
theorem createInfoFile_spec (w : World) (version out : String) (t : DateTime)
    (hy : t.year < 10000) (hmo : t.month < 100) (hd : t.day < 100)
    (hh : t.hour < 100) (hmi : t.minute < 100) (hs : t.second < 100)
    (hden : filepathJoin2 out (version ++ ".info") ∉ w.createDenied) :
    createInfoFile w version out t =
      ({w with out := (writeOut w.out (filepathJoin2 out (version ++ ".info"))
          (.textData (jsonMarshalInfo version (getInfoFileFormattedTime t))) 0o666)}, none) ∧
    parseInfoFile (jsonMarshalInfo version (getInfoFileFormattedTime t)) =
      some (version, getInfoFileFormattedTime t) ∧
    matchesInfoTimePattern (getInfoFileFormattedTime t) = true ∧
    (jsonMarshalInfo version (getInfoFileFormattedTime t)).data.getLast? = some '\x7d' := by
  refine ⟨?_, parseInfoFile_marshal version (getInfoFileFormattedTime t),
    formattedTime_matches t hy hmo hd hh hmi hs,
    jsonMarshalInfo_getLast version (getInfoFileFormattedTime t)⟩
  unfold createInfoFile
  rw [if_neg hden]

/-- Witness for C3 at a concrete version, output directory and instant. -/
theorem createInfoFile_spec_witness :
    createInfoFile ⟨.dir "mod" [], [], []⟩ "v1.0.0" "out" ⟨2026, 10, 11, 12, 34, 56⟩ =
      (⟨.dir "mod" [], writeOut [] (filepathJoin2 "out" ("v1.0.0" ++ ".info"))
          (.textData (jsonMarshalInfo "v1.0.0"
            (getInfoFileFormattedTime ⟨2026, 10, 11, 12, 34, 56⟩))) 0o666, []⟩, none) ∧
    parseInfoFile (jsonMarshalInfo "v1.0.0"
        (getInfoFileFormattedTime ⟨2026, 10, 11, 12, 34, 56⟩)) =
      some ("v1.0.0", getInfoFileFormattedTime ⟨2026, 10, 11, 12, 34, 56⟩) ∧
    matchesInfoTimePattern (getInfoFileFormattedTime ⟨2026, 10, 11, 12, 34, 56⟩) = true ∧
    (jsonMarshalInfo "v1.0.0"
        (getInfoFileFormattedTime ⟨2026, 10, 11, 12, 34, 56⟩)).data.getLast? = some '\x7d' :=
  createInfoFile_spec ⟨.dir "mod" [], [], []⟩ "v1.0.0" "out" ⟨2026, 10, 11, 12, 34, 56⟩
    (by norm_num) (by norm_num) (by norm_num) (by norm_num) (by norm_num) (by norm_num)
    (by decide)

/-! ## C7: handle lifecycle of the archive step -/

/-- Along the loop, every successfully opened source file has exactly
one matching deferred close: the balance between close events (run or
pending) and successful opens is preserved to the final trace. -/
theorem zipLoop_balance (io : ZipIO) (files : List String) :
    ∀ defers trace : List ZipEvent,
      (∀ f b, ZipEvent.openSrc f b ∉ defers) →
      (∀ f, (trace ++ defers).count (ZipEvent.closeSrc f) =
        trace.count (ZipEvent.openSrc f true)) →
      ∀ f, (zipLoop io files defers trace).count (ZipEvent.closeSrc f) =
        (zipLoop io files defers trace).count (ZipEvent.openSrc f true) := by
  induction files with
  | nil =>
    intro defers trace hno hinv f
    have hod : defers.count (ZipEvent.openSrc f true) = 0 :=
      List.count_eq_zero.mpr (hno f true)
    simp only [zipLoop, List.count_append] at hinv ⊢
    rw [hod, hinv f]
    simp [List.count_append]
  | cons g rest ih =>
    intro defers trace hno hinv f
    simp only [zipLoop]
    by_cases h1 : g ∈ io.openFail
    · rw [if_pos h1]
      have hod : defers.count (ZipEvent.openSrc f true) = 0 :=
        List.count_eq_zero.mpr (hno f true)
      simp only [List.count_append] at hinv ⊢
      simp [hod, hinv f, List.count_singleton]
    · rw [if_neg h1]
      have hinv' : ∀ f', ((trace ++ [ZipEvent.openSrc g true]) ++
          (ZipEvent.closeSrc g :: defers)).count (ZipEvent.closeSrc f') =
          (trace ++ [ZipEvent.openSrc g true]).count (ZipEvent.openSrc f' true) := by
        intro f'
        simp only [List.count_append, List.count_cons] at hinv ⊢
        by_cases hg : g = f'
        · subst hg
          have := hinv g
          simp only [List.count_append] at this
          simp only [beq_iff_eq, beq_self_eq_true, if_true, List.count_nil]
          simp
          omega
        · have := hinv f'
          simp only [List.count_append] at this
          have hne1 : ¬(ZipEvent.closeSrc g = ZipEvent.closeSrc f') := by
            simp [hg]
          have hne2 : ¬(ZipEvent.openSrc g true = ZipEvent.openSrc f' true) := by
            simp [hg]
          simp [hne1, hne2, this]
      have hno' : ∀ f' b, ZipEvent.openSrc f' b ∉ (ZipEvent.closeSrc g :: defers) := by
        intro f' b hmem
        rcases List.mem_cons.mp hmem with h | h
        · exact absurd h (by simp)
        · exact hno f' b h
      by_cases h2 : g ∈ io.entryFail
      · rw [if_pos h2]
        have hod : (ZipEvent.closeSrc g :: defers).count (ZipEvent.openSrc f true) = 0 :=
          List.count_eq_zero.mpr (hno' f true)
        have := hinv' f
        simp only [List.count_append] at this ⊢
        simp only [List.count_append] at hod
        omega
      · rw [if_neg h2]
        by_cases h3 : g ∈ io.copyFail
        · rw [if_pos h3]
          have hod : (ZipEvent.closeSrc g :: defers).count (ZipEvent.openSrc f true) = 0 :=
            List.count_eq_zero.mpr (hno' f true)
          have := hinv' f
          simp only [List.count_append] at this ⊢
          omega
        · rw [if_neg h3]
          exact ih (ZipEvent.closeSrc g :: defers) (trace ++ [ZipEvent.openSrc g true])
            hno' hinv' f

/-- The loop runs every pending deferred close at its return: the final
trace ends with the deferred events. -/
theorem zipLoop_ends_with_defers (io : ZipIO) (files : List String) :
    ∀ defers trace : List ZipEvent,
      ∃ A, zipLoop io files defers trace = A ++ defers := by
  induction files with
  | nil =>
    intro defers trace
    exact ⟨trace, rfl⟩
  | cons g rest ih =>
    intro defers trace
    simp only [zipLoop]
    by_cases h1 : g ∈ io.openFail
    · rw [if_pos h1]
      exact ⟨trace ++ [ZipEvent.openSrc g false], rfl⟩
    · rw [if_neg h1]
      by_cases h2 : g ∈ io.entryFail
      · rw [if_pos h2]
        exact ⟨(trace ++ [ZipEvent.openSrc g true]) ++ [ZipEvent.closeSrc g], by simp⟩
      · rw [if_neg h2]
        by_cases h3 : g ∈ io.copyFail
        · rw [if_pos h3]
          exact ⟨(trace ++ [ZipEvent.openSrc g true]) ++ [ZipEvent.closeSrc g], by simp⟩
        · rw [if_neg h3]
          obtain ⟨A, hA⟩ := ih (ZipEvent.closeSrc g :: defers) (trace ++ [ZipEvent.openSrc g true])
          exact ⟨A ++ [ZipEvent.closeSrc g], by simp [hA]⟩

/-- The loop only adds source-file open/close events: the count of any
other event is unchanged from the initial trace and defers. -/
theorem zipLoop_count_other (io : ZipIO) (e : ZipEvent)
    (he1 : ∀ f b, ¬e = ZipEvent.openSrc f b) (he2 : ∀ f, ¬e = ZipEvent.closeSrc f)
    (files : List String) :
    ∀ defers trace : List ZipEvent,
      (zipLoop io files defers trace).count e = (trace ++ defers).count e := by
  induction files with
  | nil =>
    intro defers trace
    rfl
  | cons g rest ih =>
    intro defers trace
    have hcount1 : ∀ b, (ZipEvent.openSrc g b == e) = false := by
      intro b
      simp only [beq_eq_false_iff_ne, ne_eq]
      intro h
      exact he1 g b h.symm
    have hcount2 : (ZipEvent.closeSrc g == e) = false := by
      simp only [beq_eq_false_iff_ne, ne_eq]
      intro h
      exact he2 g h.symm
    simp only [zipLoop]
    by_cases h1 : g ∈ io.openFail
    · rw [if_pos h1]
      simp [List.count_append, List.count_cons, hcount1]
    · rw [if_neg h1]
      by_cases h2 : g ∈ io.entryFail
      · rw [if_pos h2]
        simp [List.count_append, List.count_cons, hcount1, hcount2]
      · rw [if_neg h2]
        by_cases h3 : g ∈ io.copyFail
        · rw [if_pos h3]
          simp [List.count_append, List.count_cons, hcount1, hcount2]
        · rw [if_neg h3]
          rw [ih (ZipEvent.closeSrc g :: defers) (trace ++ [ZipEvent.openSrc g true])]
          simp [List.count_append, List.count_cons, hcount1, hcount2]

/-- C7: on every exit path of the archive step each opened handle is
closed exactly once, and the archive writer is finalized before the
underlying archive file handle is closed: every successful source-file
open has exactly one matching close; a failed `os.Create` produces only
the failed-create event and the deferred close of the nil handle; and on
a successful create the trace closes the writer and then the output file
exactly once each, as its final two events, with neither closed
earlier. -/
theorem createZipArchiveTrace_handles (io : ZipIO) (files : List String) :
    (∀ f, (createZipArchiveTrace io files).count (ZipEvent.closeSrc f) =
      (createZipArchiveTrace io files).count (ZipEvent.openSrc f true)) ∧
    (io.createFails = true →
      createZipArchiveTrace io files = [ZipEvent.createOut false, ZipEvent.closeNilOut]) ∧
    (io.createFails = false →
      (createZipArchiveTrace io files).count ZipEvent.closeWriter = 1 ∧
      (createZipArchiveTrace io files).count ZipEvent.closeOut = 1 ∧
      ∃ A, createZipArchiveTrace io files = A ++ [ZipEvent.closeWriter, ZipEvent.closeOut] ∧
        ZipEvent.closeWriter ∉ A ∧ ZipEvent.closeOut ∉ A) := by
  refine ⟨?_, ?_, ?_⟩
  · intro f
    unfold createZipArchiveTrace
    by_cases hcf : io.createFails
    · rw [if_pos hcf]
      rfl
    · rw [if_neg hcf]
      apply zipLoop_balance io files _ _ (by intro f' b h; simp at h) (by intro f'; rfl)
  · intro hcf
    unfold createZipArchiveTrace
    rw [if_pos hcf]
  · intro hcf
    have hw : (createZipArchiveTrace io files).count ZipEvent.closeWriter = 1 := by
      unfold createZipArchiveTrace
      rw [if_neg (by rw [hcf]; exact Bool.false_ne_true)]
      rw [zipLoop_count_other io _ (by intro f b h; exact absurd h (by simp))
        (by intro f h; exact absurd h (by simp)) files _ _]
      rfl
    have ho : (createZipArchiveTrace io files).count ZipEvent.closeOut = 1 := by
      unfold createZipArchiveTrace
      rw [if_neg (by rw [hcf]; exact Bool.false_ne_true)]
      rw [zipLoop_count_other io _ (by intro f b h; exact absurd h (by simp))
        (by intro f h; exact absurd h (by simp)) files _ _]
      rfl
    refine ⟨hw, ho, ?_⟩
    have hsuffix : ∃ A, createZipArchiveTrace io files =
        A ++ [ZipEvent.closeWriter, ZipEvent.closeOut] := by
      unfold createZipArchiveTrace
      rw [if_neg (by rw [hcf]; exact Bool.false_ne_true)]
      exact zipLoop_ends_with_defers io files _ _
    obtain ⟨A, hA⟩ := hsuffix
    refine ⟨A, hA, ?_, ?_⟩
    · intro hmem
      have hcnt := hw
      rw [hA] at hcnt
      simp only [List.count_append] at hcnt
      rw [show ([ZipEvent.closeWriter, ZipEvent.closeOut]).count ZipEvent.closeWriter = 1
        from rfl] at hcnt
      exact (List.count_eq_zero.mp (by omega)) hmem
    · intro hmem
      have hcnt := ho
      rw [hA] at hcnt
      simp only [List.count_append] at hcnt
      rw [show ([ZipEvent.closeWriter, ZipEvent.closeOut]).count ZipEvent.closeOut = 1
        from rfl] at hcnt
      exact (List.count_eq_zero.mp (by omega)) hmem

/-- Witness for C7: a concrete successful archive of two files and a
concrete failed creation. -/
theorem createZipArchiveTrace_handles_witness :
    ((createZipArchiveTrace ⟨false, [], [], []⟩ ["m/a", "m/b"]).count
        (ZipEvent.closeSrc "m/a") =
      (createZipArchiveTrace ⟨false, [], [], []⟩ ["m/a", "m/b"]).count
        (ZipEvent.openSrc "m/a" true)) ∧
    (createZipArchiveTrace ⟨true, [], [], []⟩ ["m/a"] =
      [ZipEvent.createOut false, ZipEvent.closeNilOut]) ∧
    ((createZipArchiveTrace ⟨false, [], [], []⟩ ["m/a", "m/b"]).count ZipEvent.closeWriter = 1 ∧
      (createZipArchiveTrace ⟨false, [], [], []⟩ ["m/a", "m/b"]).count ZipEvent.closeOut = 1 ∧
      ∃ A, createZipArchiveTrace ⟨false, [], [], []⟩ ["m/a", "m/b"] =
          A ++ [ZipEvent.closeWriter, ZipEvent.closeOut] ∧
        ZipEvent.closeWriter ∉ A ∧ ZipEvent.closeOut ∉ A) :=
  ⟨(createZipArchiveTrace_handles ⟨false, [], [], []⟩ ["m/a", "m/b"]).1 "m/a",
   (createZipArchiveTrace_handles ⟨true, [], [], []⟩ ["m/a"]).2.1 rfl,
   (createZipArchiveTrace_handles ⟨false, [], [], []⟩ ["m/a", "m/b"]).2.2 rfl⟩

end Pacmod
